import Mathlib

/-!
Verification of the `file_sanitizer` core (`src/file_sanitizer/core/sanitize.py`).

The development shallowly embeds the two components of the program:

* the Name Transform `sanitize_name`, modelled character-list by character-list
  after the Python pipeline (NFKD decomposition + ASCII fold, lowercasing, the
  regex replacement of runs of disallowed characters by a hyphen, hyphen-run
  collapsing, and stripping of boundary hyphens);
* the Tree Renamer (`rename_item`, `rename_files`, `run_sanitizer`), modelled
  over an explicit filesystem state (a list of entries, each a path given as a
  list of name segments plus a directory flag).  Filesystem faults that the
  Python code catches (`PermissionError`, other exceptions raised by
  `Path.rename`) are supplied by an explicit fault oracle.
-/

namespace FileSanitizer

/-! ## Name Transform (`sanitize_name`) -/

/-- Characters kept verbatim by the regex `[^a-z0-9.]+` in step 3 of
`sanitize_name`: lowercase ASCII letters, ASCII digits and the dot. -/
def isKeep (c : Char) : Bool :=
  ('a' ≤ c && c ≤ 'z') || ('0' ≤ c && c ≤ '9') || c = '.'

/-- Per-character NFKD decomposition (`unicodedata.normalize("NFKD", name)`).
ASCII characters are NFKD-invariant and decompose to themselves; a few
representative accented Latin letters decompose into base letter plus combining
mark; characters without a decomposition are left unchanged (they are removed
by the subsequent ASCII fold anyway). -/
def nfkd (c : Char) : List Char :=
  if c.toNat < 128 then [c]
  else if c = 'é' then ['e', Char.ofNat 0x0301]
  else if c = 'É' then ['E', Char.ofNat 0x0301]
  else if c = 'ñ' then ['n', Char.ofNat 0x0303]
  else if c = 'Ñ' then ['N', Char.ofNat 0x0303]
  else if c = 'ü' then ['u', Char.ofNat 0x0308]
  else [c]

/-- Steps 1-2 of `sanitize_name`: NFKD-decompose, then
`encode("ascii", "ignore").decode("ascii")`, which drops every character whose
code point is not below 128. -/
def asciiFold (l : List Char) : List Char :=
  (l.flatMap nfkd).filter (fun c => c.toNat < 128)

/-- Step 3 of `sanitize_name` is applied to the ASCII fold's output, so only
the ASCII case of Python `str.lower` is reachable: map `A`-`Z` to `a`-`z`. -/
def asciiLower (c : Char) : Char :=
  if 'A' ≤ c && c ≤ 'Z' then Char.ofNat (c.toNat + 32) else c

/-- Worker for step 3 of `sanitize_name`.  The flag records whether the scan
is currently inside a run of non-kept characters whose single replacement
hyphen has already been emitted, so that every maximal run of non-kept
characters yields exactly one hyphen, as the regex substitution does. -/
def replaceBadAux : Bool → List Char → List Char
  | _, [] => []
  | inRun, c :: rest =>
    if isKeep c then c :: replaceBadAux false rest
    else if inRun then replaceBadAux true rest
    else '-' :: replaceBadAux true rest

/-- Step 3 of `sanitize_name`: `re.sub(r"[^a-z0-9.]+", "-", name)` replaces
every maximal run of non-kept characters with a single hyphen. -/
def replaceBadRuns (l : List Char) : List Char :=
  replaceBadAux false l

/-- Worker for step 4 of `sanitize_name`.  The flag records whether the
previously emitted character was a hyphen, so that every run of hyphens
yields exactly one hyphen. -/
def collapseAux : Bool → List Char → List Char
  | _, [] => []
  | prevHyphen, c :: rest =>
    if c = '-' then
      if prevHyphen then collapseAux true rest
      else '-' :: collapseAux true rest
    else c :: collapseAux false rest

/-- Step 4 of `sanitize_name`: `re.sub(r"-+", "-", name)` collapses every run
of hyphens into a single hyphen. -/
def collapseHyphens (l : List Char) : List Char :=
  collapseAux false l

/-- Step 5 of `sanitize_name`: `name.strip("-")` removes leading and trailing
hyphens. -/
def stripHyphens (l : List Char) : List Char :=
  (l.dropWhile (fun c => c = '-')).rdropWhile (fun c => c = '-')

/-- The Name Transform `sanitize_name` of `sanitize.py`: NFKD-decompose and
drop non-ASCII characters, lowercase, replace runs of characters outside
`[a-z0-9.]` by a hyphen, collapse hyphen runs, and strip boundary hyphens. -/
def sanitize_name (s : String) : String :=
  ⟨stripHyphens (collapseHyphens (replaceBadRuns ((asciiFold s.data).map asciiLower)))⟩

/-! ## Well-formedness of sanitized names -/

/-- Characters allowed in a sanitized name: the kept characters plus the
hyphen. -/
def goodChar (c : Char) : Bool :=
  isKeep c || c = '-'

/-- Adjacent-pair relation forbidding the substring `--`. -/
def noDouble (a b : Char) : Prop :=
  ¬(a = '-' ∧ b = '-')

instance : DecidableRel noDouble := fun a b =>
  inferInstanceAs (Decidable (¬(a = '-' ∧ b = '-')))

/-- A kernel-reducible decision procedure for `Chain' noDouble`. -/
def decideChainNoDouble : ∀ l : List Char, Decidable (l.Chain' noDouble)
  | [] => isTrue List.chain'_nil
  | [c] => isTrue (List.chain'_singleton c)
  | a :: b :: rest =>
    match decideChainNoDouble (b :: rest) with
    | isTrue h =>
      if hd : noDouble a b then isTrue (List.chain'_cons.2 ⟨hd, h⟩)
      else isFalse (fun hc => hd (List.chain'_cons.1 hc).1)
    | isFalse h => isFalse (fun hc => h (List.chain'_cons.1 hc).2)

instance (priority := 1100) (l : List Char) : Decidable (l.Chain' noDouble) :=
  decideChainNoDouble l

/-- The result guarantees of the Name Transform: only characters from
`[a-z0-9.-]`, no leading hyphen, no trailing hyphen, and no substring `--`. -/
def wellFormed (l : List Char) : Prop :=
  (∀ c ∈ l, goodChar c = true) ∧ l.head? ≠ some '-' ∧ l.getLast? ≠ some '-' ∧
    l.Chain' noDouble

instance (l : List Char) : Decidable (wellFormed l) :=
  inferInstanceAs (Decidable (_ ∧ _ ∧ _ ∧ _))

/-! ## Tree Renamer: filesystem model -/

/-- A filesystem path, as the list of its name segments (Python `Path.parts`). -/
abbrev FsPath := List String

/-- One filesystem entry: its absolute path and whether it is a directory. -/
structure FsEntry where
  path : FsPath
  isDir : Bool
deriving DecidableEq, Repr

/-- A filesystem state: the list of existing entries. -/
abbrev Fs := List FsEntry

/-- Python `path.exists()` over the model. -/
def existsFs (fs : Fs) (p : FsPath) : Bool :=
  fs.any (fun e => e.path = p)

/-- Python `path.is_dir()` over the model: the path exists as a directory. -/
def isDirFs (fs : Fs) (p : FsPath) : Bool :=
  fs.any (fun e => decide (e.path = p) && e.isDir)

/-- Python `item_path.name`: the final path segment, `""` when there is none. -/
def pathName (p : FsPath) : String :=
  p.getLastD ""

/-- Python `item_path.with_name(n)`: replace the final segment.  Returns
`none` exactly where `Path.with_name` raises `ValueError`: when the path has
no final segment, or when the new name is empty or contains a path
separator. -/
def withName (p : FsPath) (n : String) : Option FsPath :=
  if pathName p = "" then none
  else if n = "" then none
  else if '/' ∈ n.data then none
  else some (p.dropLast ++ [n])

/-- Python `os.rename` semantics on the model: the entry at `old` and every
entry below it move under `new`. -/
def renameFs (fs : Fs) (old new : FsPath) : Fs :=
  fs.map (fun e =>
    if e.path.take old.length = old then
      { e with path := new ++ e.path.drop old.length }
    else e)

/-- Outcome of processing one snapshot entry (the Outcome variants of the
spec, reified from the log calls of `rename_item`). -/
inductive Outcome where
  | skippedNoChange
  | skippedCollision
  | simulated (oldName newName : String)
  | applied (oldName newName : String)
  | failedPermission
  | failedUnexpected
deriving DecidableEq, Repr

/-- Faults the filesystem may raise on an attempted rename, caught by
`rename_item`: `PermissionError` or any other exception. -/
inductive RenameError where
  | permission
  | other
deriving DecidableEq, Repr

/-- A fault oracle: which error, if any, the OS raises for a given rename. -/
abbrev ErrOracle := FsPath → FsPath → Option RenameError

/-- The oracle of a fault-free filesystem. -/
def noErr : ErrOracle := fun _ _ => none

/-- Embedding of `rename_item`.  Returns `none` where the Python function
raises an uncaught exception (`Path.with_name` raising `ValueError` on an
empty sanitized name), otherwise the updated filesystem and the Outcome for
this entry. -/
def rename_item (err : ErrOracle) (fs : Fs) (item_path : FsPath)
    (item_type : String) (dry_run : Bool) : Option (Fs × Outcome) :=
  let old_name := pathName item_path
  let new_name := sanitize_name old_name
  match withName item_path new_name with
  | none => none
  | some new_path =>
    if item_path = new_path then some (fs, Outcome.skippedNoChange)
    else if existsFs fs new_path then some (fs, Outcome.skippedCollision)
    else if dry_run then some (fs, Outcome.simulated old_name new_name)
    else
      match err item_path new_path with
      | some RenameError.permission => some (fs, Outcome.failedPermission)
      | some RenameError.other => some (fs, Outcome.failedUnexpected)
      | none => some (renameFs fs item_path new_path,
          Outcome.applied old_name new_name)

/-- Test whether `root` is a strict ancestor of `p` (a proper initial segment
of its parts). -/
def isStrictlyBelow (root p : FsPath) : Bool :=
  decide (root.length < p.length) && decide (p.take root.length = root)

/-- Python `target_path.rglob("*")`: every entry strictly below the target. -/
def rglobFs (fs : Fs) (root : FsPath) : List FsPath :=
  (fs.filter (fun e => isStrictlyBelow root e.path)).map FsEntry.path

/-- Python `len(p.parts)`: the depth key used for ordering. -/
def depth (p : FsPath) : Nat :=
  p.length

/-- The ordering of `paths.sort(key=lambda p: len(p.parts), reverse=True)`:
greater or equal depth first. -/
def depthGE (a b : FsPath) : Prop :=
  depth b ≤ depth a

instance : DecidableRel depthGE := fun a b =>
  inferInstanceAs (Decidable (depth b ≤ depth a))

instance : IsTotal FsPath depthGE :=
  ⟨fun a b => Nat.le_total (depth b) (depth a)⟩

instance : IsTrans FsPath depthGE :=
  ⟨fun _ _ _ h1 h2 => Nat.le_trans h2 h1⟩

/-- The snapshot ordering of `rename_files`: a stable sort by depth,
descending (Python `list.sort` is stable; insertion sort is its extensional
equal on any total preorder). -/
def sortPaths (l : List FsPath) : List FsPath :=
  l.insertionSort depthGE

/-- The upfront Configuration error of a run. -/
inductive ConfigError where
  | pathNotFound
  | notADirectory
deriving DecidableEq, Repr

/-- Result of a whole run: final filesystem, the emitted Outcomes in
processing order, and whether the run was aborted by an uncaught per-item
exception. -/
structure RunReport where
  fs : Fs
  outcomes : List Outcome
  aborted : Bool
deriving DecidableEq, Repr

/-- The per-entry loop of `rename_files`: process each snapshot path in
order, stopping (with `aborted := true`) where an uncaught exception
propagates out of `rename_item`. -/
def processItems (err : ErrOracle) (dry_run : Bool) : Fs → List FsPath → RunReport
  | fs, [] => ⟨fs, [], false⟩
  | fs, p :: rest =>
    let kind := if isDirFs fs p then "FOLDER" else "FILE"
    match rename_item err fs p kind dry_run with
    | none => ⟨fs, [], true⟩
    | some (fs2, o) =>
      let r := processItems err dry_run fs2 rest
      ⟨r.fs, o :: r.outcomes, r.aborted⟩

/-- Embedding of `rename_files`: validate that the target exists, snapshot
every descendant entry, sort deepest-first, then process each in order. -/
def rename_files (err : ErrOracle) (fs : Fs) (target_path : FsPath)
    (dry_run : Bool) : Except ConfigError RunReport :=
  if existsFs fs target_path = false then Except.error ConfigError.pathNotFound
  else Except.ok (processItems err dry_run fs (sortPaths (rglobFs fs target_path)))

/-- Embedding of the CLI command `run_sanitizer`: the `typer.Argument`
declaration validates that the path exists and is a directory
(`exists=True, file_okay=False, dir_okay=True`) before the command body runs
`rename_files` with `dry_run = not apply`. -/
def run_sanitizer (err : ErrOracle) (fs : Fs) (path : FsPath)
    (apply : Bool) : Except ConfigError RunReport :=
  if existsFs fs path = false then Except.error ConfigError.pathNotFound
  else if isDirFs fs path = false then Except.error ConfigError.notADirectory
  else rename_files err fs path (!apply)

lemma ne_hyphen_of_isKeep {c : Char} (h : isKeep c = true) : c ≠ '-' := by
  rintro rfl
  simp [isKeep] at h

lemma replaceBadAux_cons_keep (b : Bool) {d : Char} (rest : List Char)
    (hk : isKeep d = true) :
    replaceBadAux b (d :: rest) = d :: replaceBadAux false rest := by
  cases b <;> simp [replaceBadAux, hk]

lemma replaceBadAux_cons_bad_true {d : Char} (rest : List Char)
    (hk : isKeep d = false) :
    replaceBadAux true (d :: rest) = replaceBadAux true rest := by
  simp [replaceBadAux, hk]

lemma replaceBadAux_cons_bad_false {d : Char} (rest : List Char)
    (hk : isKeep d = false) :
    replaceBadAux false (d :: rest) = '-' :: replaceBadAux true rest := by
  simp [replaceBadAux, hk]

lemma goodChar_of_mem_replaceBadAux :
    ∀ (b : Bool) (l : List Char), ∀ c ∈ replaceBadAux b l, goodChar c = true := by
  intro b l
  induction l generalizing b with
  | nil => simp [replaceBadAux]
  | cons d rest ih =>
    intro c hc
    rcases hk : isKeep d with hkf | hkt
    · cases b with
      | true =>
        rw [replaceBadAux_cons_bad_true rest hk] at hc
        exact ih true c hc
      | false =>
        rw [replaceBadAux_cons_bad_false rest hk] at hc
        rcases List.mem_cons.1 hc with rfl | hc
        · simp [goodChar]
        · exact ih true c hc
    · rw [replaceBadAux_cons_keep b rest hk] at hc
      rcases List.mem_cons.1 hc with rfl | hc
      · simp [goodChar, hk]
      · exact ih false c hc

lemma head_replaceBadAux_true {l : List Char} {c : Char}
    (h : (replaceBadAux true l).head? = some c) : isKeep c = true := by
  induction l with
  | nil => simp [replaceBadAux] at h
  | cons d rest ih =>
    rcases hk : isKeep d with hkf | hkt
    · rw [replaceBadAux_cons_bad_true rest hk] at h
      exact ih h
    · rw [replaceBadAux_cons_keep true rest hk, List.head?_cons,
        Option.some.injEq] at h
      exact h ▸ hk

lemma chain_replaceBadAux : ∀ (b : Bool) (l : List Char),
    (replaceBadAux b l).Chain' noDouble := by
  intro b l
  induction l generalizing b with
  | nil => simp [replaceBadAux]
  | cons d rest ih =>
    rcases hk : isKeep d with hkf | hkt
    · cases b with
      | true =>
        rw [replaceBadAux_cons_bad_true rest hk]
        exact ih true
      | false =>
        rw [replaceBadAux_cons_bad_false rest hk, List.chain'_cons']
        refine ⟨?_, ih true⟩
        intro y hy
        have := head_replaceBadAux_true hy
        exact fun h => absurd h.2 (ne_hyphen_of_isKeep this)
    · rw [replaceBadAux_cons_keep b rest hk, List.chain'_cons']
      refine ⟨?_, ih false⟩
      intro y _
      exact fun hy => absurd hy.1 (ne_hyphen_of_isKeep hk)

lemma replaceBadAux_id : ∀ l : List Char,
    (∀ c ∈ l, goodChar c = true) → l.Chain' noDouble →
    replaceBadAux false l = l ∧
      (l.head? ≠ some '-' → replaceBadAux true l = l) := by
  intro l
  induction l with
  | nil => intro _ _; exact ⟨rfl, fun _ => rfl⟩
  | cons d rest ih =>
    intro hgood hchain
    have hrest := ih (fun c hc => hgood c (List.mem_cons_of_mem _ hc))
      (List.Chain'.tail hchain)
    rcases hk : isKeep d with hkf | hkt
    · have hd : d = '-' := by
        have hg := hgood d (List.mem_cons_self d rest)
        simp only [goodChar, hk, Bool.false_or, decide_eq_true_eq] at hg
        exact hg
      subst hd
      have hresthead : rest.head? ≠ some '-' := by
        intro hh
        cases rest with
        | nil => simp at hh
        | cons e rest2 =>
          simp only [List.head?_cons, Option.some.injEq] at hh
          have := (List.chain'_cons'.1 hchain).1 e (by simp)
          exact this ⟨rfl, hh⟩
      constructor
      · rw [replaceBadAux_cons_bad_false rest hk, hrest.2 hresthead]
      · intro hhead
        exact absurd (by simp) hhead
    · constructor
      · rw [replaceBadAux_cons_keep false rest hk, hrest.1]
      · intro _
        rw [replaceBadAux_cons_keep true rest hk, hrest.1]

lemma collapseAux_cons_hyphen_true (rest : List Char) :
    collapseAux true ('-' :: rest) = collapseAux true rest := by
  simp [collapseAux]

lemma collapseAux_cons_hyphen_false (rest : List Char) :
    collapseAux false ('-' :: rest) = '-' :: collapseAux true rest := by
  simp [collapseAux]

lemma collapseAux_cons_other (b : Bool) {d : Char} (rest : List Char)
    (hd : d ≠ '-') :
    collapseAux b (d :: rest) = d :: collapseAux false rest := by
  cases b <;> simp [collapseAux, hd]

lemma mem_of_mem_collapseAux :
    ∀ (b : Bool) (l : List Char), ∀ c ∈ collapseAux b l, c ∈ l := by
  intro b l
  induction l generalizing b with
  | nil => simp [collapseAux]
  | cons d rest ih =>
    intro c hc
    by_cases hd : d = '-'
    · subst hd
      cases b with
      | true =>
        rw [collapseAux_cons_hyphen_true rest] at hc
        exact List.mem_cons_of_mem _ (ih true c hc)
      | false =>
        rw [collapseAux_cons_hyphen_false rest] at hc
        rcases List.mem_cons.1 hc with rfl | hc
        · exact List.mem_cons_self _ _
        · exact List.mem_cons_of_mem _ (ih true c hc)
    · rw [collapseAux_cons_other b rest hd] at hc
      rcases List.mem_cons.1 hc with rfl | hc
      · exact List.mem_cons_self _ _
      · exact List.mem_cons_of_mem _ (ih false c hc)

lemma head_collapseAux_true {l : List Char} {c : Char}
    (h : (collapseAux true l).head? = some c) : c ≠ '-' := by
  induction l with
  | nil => simp [collapseAux] at h
  | cons d rest ih =>
    by_cases hd : d = '-'
    · subst hd
      rw [collapseAux_cons_hyphen_true rest] at h
      exact ih h
    · rw [collapseAux_cons_other true rest hd, List.head?_cons,
        Option.some.injEq] at h
      exact h ▸ hd

lemma chain_collapseAux : ∀ (b : Bool) (l : List Char),
    (collapseAux b l).Chain' noDouble := by
  intro b l
  induction l generalizing b with
  | nil => simp [collapseAux]
  | cons d rest ih =>
    by_cases hd : d = '-'
    · subst hd
      cases b with
      | true =>
        rw [collapseAux_cons_hyphen_true rest]
        exact ih true
      | false =>
        rw [collapseAux_cons_hyphen_false rest, List.chain'_cons']
        refine ⟨?_, ih true⟩
        intro y hy
        exact fun h => absurd h.2 (head_collapseAux_true hy)
    · rw [collapseAux_cons_other b rest hd, List.chain'_cons']
      refine ⟨?_, ih false⟩
      intro y _
      exact fun h => absurd h.1 hd

lemma collapseAux_id : ∀ l : List Char, l.Chain' noDouble →
    collapseAux false l = l ∧
      (l.head? ≠ some '-' → collapseAux true l = l) := by
  intro l
  induction l with
  | nil => intro _; exact ⟨rfl, fun _ => rfl⟩
  | cons d rest ih =>
    intro hchain
    have hrest := ih (List.Chain'.tail hchain)
    by_cases hd : d = '-'
    · subst hd
      have hresthead : rest.head? ≠ some '-' := by
        intro hh
        cases rest with
        | nil => simp at hh
        | cons e rest2 =>
          simp only [List.head?_cons, Option.some.injEq] at hh
          have := (List.chain'_cons'.1 hchain).1 e (by simp)
          exact this ⟨rfl, hh⟩
      constructor
      · rw [collapseAux_cons_hyphen_false rest, hrest.2 hresthead]
      · intro hhead
        exact absurd (by simp) hhead
    · constructor
      · rw [collapseAux_cons_other false rest hd, hrest.1]
      · intro _
        rw [collapseAux_cons_other true rest hd, hrest.1]

lemma stripHyphens_subset {l : List Char} : ∀ c ∈ stripHyphens l, c ∈ l := by
  intro c hc
  unfold stripHyphens at hc
  have hpre := List.rdropWhile_prefix (fun c => c = '-') (l.dropWhile (fun c => c = '-'))
  have h1 : c ∈ l.dropWhile (fun c => c = '-') := hpre.sublist.mem hc
  exact (List.dropWhile_suffix _).sublist.mem h1

lemma head_dropWhile_hyphen {l : List Char} {c : Char}
    (h : (l.dropWhile (fun c => c = '-')).head? = some c) : c ≠ '-' := by
  induction l with
  | nil => simp at h
  | cons d rest ih =>
    by_cases hd : d = '-'
    · rw [List.dropWhile_cons_of_pos (by simp [hd])] at h
      exact ih h
    · rw [List.dropWhile_cons_of_neg (by simp [hd]), List.head?_cons,
        Option.some.injEq] at h
      exact h ▸ hd

lemma stripHyphens_head {l : List Char} : (stripHyphens l).head? ≠ some '-' := by
  intro h
  unfold stripHyphens at h
  set d := l.dropWhile (fun c => c = '-') with hd
  have hpre : d.rdropWhile (fun c => c = '-') <+: d := List.rdropWhile_prefix _ _
  obtain ⟨t, ht⟩ := hpre
  rcases hs : d.rdropWhile (fun c => c = '-') with _ | ⟨a, s⟩
  · rw [hs] at h; simp at h
  · rw [hs] at h ht
    simp only [List.head?_cons, Option.some.injEq] at h
    have : d.head? = some a := by rw [← ht]; simp
    exact head_dropWhile_hyphen this h

lemma stripHyphens_last {l : List Char} : (stripHyphens l).getLast? ≠ some '-' := by
  intro h
  unfold stripHyphens at h
  set d := l.dropWhile (fun c => c = '-') with hd
  by_cases hnn : d.rdropWhile (fun c => c = '-') = []
  · rw [hnn] at h; simp at h
  · have hlast := List.rdropWhile_last_not (fun c => c = '-') d hnn
    rw [List.getLast?_eq_getLast _ hnn] at h
    simp only [Option.some.injEq] at h
    rw [h] at hlast
    simp at hlast

lemma stripHyphens_chain {l : List Char} (h : l.Chain' noDouble) :
    (stripHyphens l).Chain' noDouble := by
  unfold stripHyphens
  have hpre := List.rdropWhile_prefix (fun c => c = '-') (l.dropWhile (fun c => c = '-'))
  have h1 : (l.dropWhile (fun c => c = '-')).Chain' noDouble :=
    h.suffix (List.dropWhile_suffix _)
  exact List.Chain'.prefix h1 hpre

lemma stripHyphens_id {l : List Char} (h1 : l.head? ≠ some '-')
    (h2 : l.getLast? ≠ some '-') : stripHyphens l = l := by
  unfold stripHyphens
  have hd : l.dropWhile (fun c => c = '-') = l := by
    cases l with
    | nil => rfl
    | cons a rest =>
      rw [List.dropWhile_cons_of_neg]
      simp only [List.head?_cons, ne_eq, Option.some.injEq] at h1
      simp [h1]
  rw [hd, List.rdropWhile_eq_self_iff]
  intro hl hp
  apply h2
  rw [List.getLast?_eq_getLast _ hl]
  simpa using hp

/-! ## Fixed points of the Name Transform -/

lemma toNat_ofNat_small {m : Nat} (h : m < 55296) : (Char.ofNat m).toNat = m := by
  have hv : m.isValidChar := Or.inl h
  unfold Char.ofNat
  rw [dif_pos hv]
  unfold Char.ofNatAux
  simp [Char.toNat, UInt32.toNat, BitVec.toNat_ofNatLt]

lemma toNat_lt_128_of_goodChar {c : Char} (h : goodChar c = true) :
    c.toNat < 128 := by
  simp only [goodChar, isKeep, Bool.or_eq_true, Bool.and_eq_true,
    decide_eq_true_eq] at h
  rcases h with ((⟨_, h2⟩ | ⟨_, h2⟩) | h) | h
  · have hz : c.toNat ≤ 122 := h2
    omega
  · have hz : c.toNat ≤ 57 := h2
    omega
  · subst h; decide
  · subst h; decide

lemma nfkd_of_lt_128 {c : Char} (h : c.toNat < 128) : nfkd c = [c] := by
  simp only [nfkd, if_pos h]

lemma asciiFold_of_good (l : List Char) (hgood : ∀ c ∈ l, goodChar c = true) :
    asciiFold l = l := by
  unfold asciiFold
  have h1 : l.flatMap nfkd = l := by
    induction l with
    | nil => rfl
    | cons d rest ih =>
      rw [List.flatMap_cons,
        nfkd_of_lt_128 (toNat_lt_128_of_goodChar (hgood d (List.mem_cons_self d rest))),
        ih (fun c hc => hgood c (List.mem_cons_of_mem _ hc))]
      rfl
  rw [h1, List.filter_eq_self]
  intro c hc
  simpa using toNat_lt_128_of_goodChar (hgood c hc)

lemma asciiLower_of_good {c : Char} (h : goodChar c = true) :
    asciiLower c = c := by
  unfold asciiLower
  rw [if_neg]
  simp only [Bool.and_eq_true, decide_eq_true_eq, not_and]
  intro hA hZ
  have h1 : 65 ≤ c.toNat := hA
  have h2 : c.toNat ≤ 90 := hZ
  simp only [goodChar, isKeep, Bool.or_eq_true, Bool.and_eq_true,
    decide_eq_true_eq] at h
  rcases h with ((⟨ha, _⟩ | ⟨_, hb⟩) | hdot) | hhyp
  · have : 97 ≤ c.toNat := ha
    omega
  · have : c.toNat ≤ 57 := hb
    omega
  · subst hdot
    exact absurd h1 (by decide)
  · subst hhyp
    exact absurd h1 (by decide)

lemma map_asciiLower_of_good (l : List Char)
    (h : ∀ c ∈ l, goodChar c = true) : l.map asciiLower = l := by
  induction l with
  | nil => rfl
  | cons d rest ih =>
    rw [List.map_cons, asciiLower_of_good (h d (List.mem_cons_self d rest)),
      ih (fun c hc => h c (List.mem_cons_of_mem _ hc))]

/-- Shared helper: every output of the Name Transform satisfies the result
guarantees of the spec. -/
lemma sanitize_wellFormed (s : String) : wellFormed (sanitize_name s).data := by
  refine ⟨?_, ?_, ?_, ?_⟩
  · intro c hc
    have h1 := stripHyphens_subset c hc
    unfold collapseHyphens at h1
    have h2 := mem_of_mem_collapseAux false _ c h1
    unfold replaceBadRuns at h2
    exact goodChar_of_mem_replaceBadAux false _ c h2
  · exact stripHyphens_head
  · exact stripHyphens_last
  · apply stripHyphens_chain
    unfold collapseHyphens
    exact chain_collapseAux false _

/-- Shared helper: every well-formed string is a fixed point of the Name
Transform. -/
lemma sanitize_fixed_of_wellFormed {s : String} (h : wellFormed s.data) :
    sanitize_name s = s := by
  obtain ⟨hgood, hhead, hlast, hchain⟩ := h
  unfold sanitize_name replaceBadRuns collapseHyphens
  rw [asciiFold_of_good _ hgood, map_asciiLower_of_good _ hgood,
    (replaceBadAux_id _ hgood hchain).1, (collapseAux_id _ hchain).1,
    stripHyphens_id hhead hlast]

/-! ## Dot preservation -/

lemma count_dot_replaceBadAux : ∀ (b : Bool) (l : List Char),
    (replaceBadAux b l).count '.' = l.count '.' := by
  intro b l
  induction l generalizing b with
  | nil => cases b <;> rfl
  | cons d rest ih =>
    rcases hk : isKeep d with hkf | hkt
    · have hd : d ≠ '.' := by
        intro hdot
        rw [hdot] at hk
        simp [isKeep] at hk
      cases b with
      | true =>
        rw [replaceBadAux_cons_bad_true rest hk, ih true, List.count_cons]
        simp [hd]
      | false =>
        rw [replaceBadAux_cons_bad_false rest hk, List.count_cons,
          List.count_cons, ih true]
        simp [hd]
    · rw [replaceBadAux_cons_keep b rest hk, List.count_cons, List.count_cons,
        ih false]

lemma count_dot_collapseAux : ∀ (b : Bool) (l : List Char),
    (collapseAux b l).count '.' = l.count '.' := by
  intro b l
  induction l generalizing b with
  | nil => cases b <;> rfl
  | cons d rest ih =>
    by_cases hd : d = '-'
    · subst hd
      cases b with
      | true =>
        rw [collapseAux_cons_hyphen_true rest, ih true, List.count_cons]
        simp
      | false =>
        rw [collapseAux_cons_hyphen_false rest, List.count_cons,
          List.count_cons, ih true]
    · rw [collapseAux_cons_other b rest hd, List.count_cons, List.count_cons,
        ih false]

lemma count_dot_dropWhile_hyphen : ∀ l : List Char,
    (l.dropWhile (fun c => c = '-')).count '.' = l.count '.' := by
  intro l
  induction l with
  | nil => rfl
  | cons d rest ih =>
    by_cases hd : d = '-'
    · rw [List.dropWhile_cons_of_pos (by simp [hd]), ih, List.count_cons]
      subst hd
      simp
    · rw [List.dropWhile_cons_of_neg (by simp [hd])]

lemma count_dot_rdropWhile_hyphen (l : List Char) :
    (l.rdropWhile (fun c => c = '-')).count '.' = l.count '.' := by
  unfold List.rdropWhile
  rw [List.count_reverse, count_dot_dropWhile_hyphen, List.count_reverse]

lemma asciiLower_eq_dot_iff {c : Char} : asciiLower c = '.' ↔ c = '.' := by
  constructor
  · intro h
    unfold asciiLower at h
    by_cases hAZ : ('A' ≤ c && c ≤ 'Z') = true
    · rw [if_pos hAZ] at h
      simp only [Bool.and_eq_true, decide_eq_true_eq] at hAZ
      have h65 : 65 ≤ c.toNat := hAZ.1
      have h90 : c.toNat ≤ 90 := hAZ.2
      have hto : (Char.ofNat (c.toNat + 32)).toNat = c.toNat + 32 :=
        toNat_ofNat_small (by omega)
      rw [h] at hto
      have hdot : ('.' : Char).toNat = 46 := by decide
      omega
    · rwa [if_neg hAZ] at h
  · intro h
    subst h
    decide

lemma count_dot_map_asciiLower : ∀ l : List Char,
    (l.map asciiLower).count '.' = l.count '.' := by
  intro l
  induction l with
  | nil => rfl
  | cons d rest ih =>
    rw [List.map_cons, List.count_cons, List.count_cons, ih]
    by_cases hd : d = '.'
    · subst hd
      simp [asciiLower_eq_dot_iff]
    · have : asciiLower d ≠ '.' := fun hc => hd (asciiLower_eq_dot_iff.1 hc)
      simp [hd, this]

/-- Shared helper: the number of dots in the sanitized name equals the number
of dots surviving the ASCII fold. -/
lemma count_dot_sanitize (s : String) :
    (sanitize_name s).data.count '.' = (asciiFold s.data).count '.' := by
  unfold sanitize_name stripHyphens replaceBadRuns collapseHyphens
  rw [count_dot_rdropWhile_hyphen, count_dot_dropWhile_hyphen,
    count_dot_collapseAux, count_dot_replaceBadAux, count_dot_map_asciiLower]

/-! ## Supporting lemmas for the Tree Renamer -/

lemma rename_item_eq_of_withName (err : ErrOracle) (fs : Fs) (p : FsPath)
    (k : String) (dr : Bool) (np : FsPath)
    (hwn : withName p (sanitize_name (pathName p)) = some np) :
    rename_item err fs p k dr =
      (if p = np then some (fs, Outcome.skippedNoChange)
       else if existsFs fs np then some (fs, Outcome.skippedCollision)
       else if dr then
         some (fs, Outcome.simulated (pathName p) (sanitize_name (pathName p)))
       else
         match err p np with
         | some RenameError.permission => some (fs, Outcome.failedPermission)
         | some RenameError.other => some (fs, Outcome.failedUnexpected)
         | none => some (renameFs fs p np,
             Outcome.applied (pathName p) (sanitize_name (pathName p)))) := by
  simp only [rename_item, hwn]

lemma processItems_cons (err : ErrOracle) (dr : Bool) (fs : Fs) (p : FsPath)
    (rest : List FsPath) :
    processItems err dr fs (p :: rest) =
      match rename_item err fs p (if isDirFs fs p then "FOLDER" else "FILE") dr with
      | none => ⟨fs, [], true⟩
      | some (fs2, o) =>
        ⟨(processItems err dr fs2 rest).fs,
          o :: (processItems err dr fs2 rest).outcomes,
          (processItems err dr fs2 rest).aborted⟩ := by
  rfl

lemma rename_item_eq_none_of_withName (err : ErrOracle) (fs : Fs) (p : FsPath)
    (k : String) (dr : Bool)
    (hwn : withName p (sanitize_name (pathName p)) = none) :
    rename_item err fs p k dr = none := by
  simp only [rename_item, hwn]

lemma rename_item_dry_run (err : ErrOracle) (fs : Fs) (p : FsPath)
    (k : String) (r : Fs × Outcome)
    (h : rename_item err fs p k true = some r) :
    r.1 = fs ∧ (r.2 = Outcome.skippedNoChange ∨ r.2 = Outcome.skippedCollision ∨
      ∃ a b, r.2 = Outcome.simulated a b) := by
  cases hwn : withName p (sanitize_name (pathName p)) with
  | none =>
    rw [rename_item_eq_none_of_withName err fs p k true hwn] at h
    cases h
  | some np =>
    rw [rename_item_eq_of_withName err fs p k true np hwn] at h
    split_ifs at h with h1 h2 h3
    · cases h
      exact ⟨rfl, Or.inl rfl⟩
    · cases h
      exact ⟨rfl, Or.inr (Or.inl rfl)⟩
    · cases h
      exact ⟨rfl, Or.inr (Or.inr ⟨_, _, rfl⟩)⟩
    · exact absurd rfl h3

lemma processItems_dry_run (err : ErrOracle) :
    ∀ (l : List FsPath) (fs : Fs),
    (processItems err true fs l).fs = fs ∧
      ∀ o ∈ (processItems err true fs l).outcomes,
        o = Outcome.skippedNoChange ∨ o = Outcome.skippedCollision ∨
          ∃ a b, o = Outcome.simulated a b := by
  intro l
  induction l with
  | nil =>
    intro fs
    exact ⟨rfl, by simp [processItems]⟩
  | cons p rest ih =>
    intro fs
    rw [processItems_cons]
    cases hri : rename_item err fs p (if isDirFs fs p then "FOLDER" else "FILE") true with
    | none => exact ⟨rfl, by simp⟩
    | some r =>
      obtain ⟨fs2, o⟩ := r
      obtain ⟨hfs, hout⟩ := rename_item_dry_run err fs p _ _ hri
      dsimp only at hfs hout ⊢
      subst hfs
      refine ⟨(ih _).1, ?_⟩
      intro o2 ho2
      rcases List.mem_cons.1 ho2 with rfl | ho2
      · exact hout
      · exact (ih _).2 o2 ho2

lemma chain_noDouble_of_all_dots : ∀ l : List Char,
    (∀ c ∈ l, c = '.') → l.Chain' noDouble := by
  intro l
  induction l with
  | nil => intro _; simp
  | cons d rest ih =>
    intro h
    rw [List.chain'_cons']
    refine ⟨?_, ih (fun c hc => h c (List.mem_cons_of_mem _ hc))⟩
    intro y _
    have hd := h d (List.mem_cons_self d rest)
    intro hc
    rw [hd] at hc
    exact absurd hc.1 (by decide)

lemma wellFormed_of_all_dots {l : List Char} (h : ∀ c ∈ l, c = '.') :
    wellFormed l := by
  refine ⟨?_, ?_, ?_, chain_noDouble_of_all_dots l h⟩
  · intro c hc
    rw [h c hc]
    decide
  · cases l with
    | nil => simp
    | cons d rest =>
      simp only [List.head?_cons, ne_eq, Option.some.injEq]
      rw [h d (List.mem_cons_self d rest)]
      decide
  · by_cases hl : l = []
    · subst hl; simp
    · rw [List.getLast?_eq_getLast _ hl]
      simp only [ne_eq, Option.some.injEq]
      rw [h _ (List.getLast_mem hl)]
      decide

/-! ## The claims -/

/-- C3: the sanitization transform is idempotent: for every string `s`,
`sanitize_name (sanitize_name s) = sanitize_name s`. -/
theorem sanitize_name_idempotent (s : String) :
    sanitize_name (sanitize_name s) = sanitize_name s :=
  sanitize_fixed_of_wellFormed (sanitize_wellFormed s)

/-- C4: for every string `s`, `sanitize_name s` is well-formed: it contains
only characters from a-z, 0-9, dot and hyphen, has no leading or trailing
hyphen, and no two adjacent hyphens (no substring `--`). -/
theorem sanitize_name_wellFormed (s : String) :
    wellFormed (sanitize_name s).data :=
  sanitize_wellFormed s

/-- C10: every well-formed string is a fixed point of `sanitize_name`, and
the well-formed strings are exactly the image of the transform. -/
theorem wellFormed_iff_fixed :
    (∀ s : String, wellFormed s.data → sanitize_name s = s) ∧
      (∀ s : String, wellFormed s.data ↔ ∃ t, sanitize_name t = s) := by
  constructor
  · intro s h
    exact sanitize_fixed_of_wellFormed h
  · intro s
    constructor
    · intro h
      exact ⟨s, sanitize_fixed_of_wellFormed h⟩
    · rintro ⟨t, rfl⟩
      exact sanitize_wellFormed t

/-- Witness for C10 at the concrete well-formed string `a-b.c`. -/
theorem wellFormed_iff_fixed_witness :
    wellFormed ("a-b.c" : String).data ∧ sanitize_name "a-b.c" = "a-b.c" :=
  ⟨by decide, wellFormed_iff_fixed.1 "a-b.c" (by decide)⟩

/-- C9: `sanitize_name` preserves every dot that survives the ASCII fold
(the dot count of the output equals the dot count of the folded input), and
every all-dots string — in particular `.` and `..` — is returned verbatim. -/
theorem sanitize_name_preserves_dots (s : String) :
    (sanitize_name s).data.count '.' = (asciiFold s.data).count '.' ∧
      (s.data.all (fun c => c = '.') = true → sanitize_name s = s) := by
  refine ⟨count_dot_sanitize s, ?_⟩
  intro h
  apply sanitize_fixed_of_wellFormed
  apply wellFormed_of_all_dots
  intro c hc
  have hall := List.all_eq_true.1 h c hc
  simpa using hall

/-- Witness for C9 at the concrete all-dots string `..`. -/
theorem sanitize_name_preserves_dots_witness :
    (".." : String).data.all (fun c => c = '.') = true ∧
      sanitize_name ".." = ".." :=
  ⟨by decide, (sanitize_name_preserves_dots "..").2 (by decide)⟩

/-- C2: in the processing sequence of `rename_files` — the depth-descending
sort of the rglob snapshot — every entry strictly below another entry is
placed at a strictly smaller index, so descendants are processed before
their ancestor directories. -/
theorem descendant_before_ancestor (fs : Fs) (root : FsPath) (i j : Nat)
    (hi : i < (sortPaths (rglobFs fs root)).length)
    (hj : j < (sortPaths (rglobFs fs root)).length)
    (h : isStrictlyBelow ((sortPaths (rglobFs fs root)).get ⟨i, hi⟩)
      ((sortPaths (rglobFs fs root)).get ⟨j, hj⟩) = true) :
    j < i := by
  have hsorted : (sortPaths (rglobFs fs root)).Sorted depthGE :=
    List.sorted_insertionSort depthGE (rglobFs fs root)
  simp only [isStrictlyBelow, Bool.and_eq_true, decide_eq_true_eq] at h
  by_contra hc
  have hij : i ≤ j := Nat.le_of_not_lt hc
  rcases Nat.eq_or_lt_of_le hij with heq | hlt
  · subst heq
    exact absurd h.1 (lt_irrefl _)
  · have hrel : ((sortPaths (rglobFs fs root)).get ⟨j, hj⟩).length ≤
        ((sortPaths (rglobFs fs root)).get ⟨i, hi⟩).length :=
      hsorted.rel_get_of_lt (show (⟨i, hi⟩ : Fin _) < ⟨j, hj⟩ from hlt)
    exact absurd h.1 (Nat.not_lt.2 hrel)

/-- Witness for C2 on the concrete tree r, r/a, r/a/b: the sorted snapshot is
[r/a/b, r/a], the ancestor r/a sits at index 1, its descendant at index 0. -/
theorem descendant_before_ancestor_witness :
    isStrictlyBelow
        ((sortPaths (rglobFs
          [FsEntry.mk ["r"] true, FsEntry.mk ["r", "a"] true,
            FsEntry.mk ["r", "a", "b"] false] ["r"])).get ⟨1, by decide⟩)
        ((sortPaths (rglobFs
          [FsEntry.mk ["r"] true, FsEntry.mk ["r", "a"] true,
            FsEntry.mk ["r", "a", "b"] false] ["r"])).get ⟨0, by decide⟩) = true ∧
      (0 : Nat) < 1 :=
  ⟨by decide,
    descendant_before_ancestor
      [FsEntry.mk ["r"] true, FsEntry.mk ["r", "a"] true,
        FsEntry.mk ["r", "a", "b"] false] ["r"] 1 0
      (by decide) (by decide) (by decide)⟩

/-- C6 counterexample: the claim as stated is false of `rename_files`.  On a
root that exists but is not a directory, `rename_files` does not fail with a
Configuration error: only `exists()` is checked (sanitize.py:114-116), the
rglob snapshot of a file root is empty, and the run completes normally. -/
theorem rename_files_accepts_file_root :
    isDirFs [FsEntry.mk ["f"] false] ["f"] = false ∧
      rename_files noErr [FsEntry.mk ["f"] false] ["f"] true =
        Except.ok ⟨[FsEntry.mk ["f"] false], [], false⟩ :=
  ⟨by decide, by rfl⟩

/-- C6 (amended): `rename_files` fails with the Configuration error exactly
when the target does not exist — the error return is terminal and carries no
report, so nothing is enumerated or renamed — while a root that exists is
accepted by `rename_files` itself even when it is not a directory; the
not-a-directory half of the claimed validation is performed upfront by the
CLI entry point `run_sanitizer` (its `typer.Argument` declaration), so a run
through the CLI fails with a Configuration error before any operation
whenever the root is missing or not a directory. -/
theorem config_error_on_invalid_root :
    (∀ (err : ErrOracle) (fs : Fs) (p : FsPath) (dr : Bool),
        existsFs fs p = false →
        rename_files err fs p dr = Except.error ConfigError.pathNotFound) ∧
    (∀ (err : ErrOracle) (fs : Fs) (p : FsPath) (dr : Bool),
        existsFs fs p = true →
        rename_files err fs p dr =
          Except.ok (processItems err dr fs (sortPaths (rglobFs fs p)))) ∧
    (∀ (err : ErrOracle) (fs : Fs) (p : FsPath) (ap : Bool),
        existsFs fs p = false ∨ isDirFs fs p = false →
        run_sanitizer err fs p ap = Except.error ConfigError.pathNotFound ∨
        run_sanitizer err fs p ap = Except.error ConfigError.notADirectory) := by
  refine ⟨?_, ?_, ?_⟩
  · intro err fs p dr h
    unfold rename_files
    rw [if_pos h]
  · intro err fs p dr h
    have hne : ¬ existsFs fs p = false := by
      rw [h]
      simp
    unfold rename_files
    rw [if_neg hne]
  · intro err fs p ap h
    unfold run_sanitizer
    rcases h with h | h
    · rw [if_pos h]
      exact Or.inl rfl
    · by_cases he : existsFs fs p = false
      · rw [if_pos he]
        exact Or.inl rfl
      · rw [if_neg he, if_pos h]
        exact Or.inr rfl

/-- Witness for C6: a missing root, an existing root accepted by
`rename_files`, and an existing non-directory root rejected by the CLI. -/
theorem config_error_on_invalid_root_witness :
    (existsFs [] ["r"] = false ∧
      rename_files noErr [] ["r"] true = Except.error ConfigError.pathNotFound) ∧
    (existsFs [FsEntry.mk ["r"] true] ["r"] = true ∧
      rename_files noErr [FsEntry.mk ["r"] true] ["r"] true =
        Except.ok (processItems noErr true [FsEntry.mk ["r"] true]
          (sortPaths (rglobFs [FsEntry.mk ["r"] true] ["r"])))) ∧
    (isDirFs [⟨["f"], false⟩] ["f"] = false ∧
      (run_sanitizer noErr [⟨["f"], false⟩] ["f"] false =
          Except.error ConfigError.pathNotFound ∨
        run_sanitizer noErr [⟨["f"], false⟩] ["f"] false =
          Except.error ConfigError.notADirectory)) :=
  ⟨⟨by decide, config_error_on_invalid_root.1 noErr [] ["r"] true (by decide)⟩,
    ⟨by decide,
      config_error_on_invalid_root.2.1 noErr [FsEntry.mk ["r"] true] ["r"] true
        (by decide)⟩,
    ⟨by decide,
      config_error_on_invalid_root.2.2 noErr [⟨["f"], false⟩] ["f"] false
        (Or.inr (by decide))⟩⟩

/-- C8: a Simulate-mode run (`dry_run = true`) never mutates the filesystem
— the final state equals the initial state — and reports only no-change,
collision, or simulated old/new name pairs, never an applied rename. -/
theorem dry_run_no_mutation (err : ErrOracle) (fs : Fs) (root : FsPath)
    (r : RunReport) (h : rename_files err fs root true = Except.ok r) :
    r.fs = fs ∧ ∀ o ∈ r.outcomes,
      o = Outcome.skippedNoChange ∨ o = Outcome.skippedCollision ∨
        ∃ a b, o = Outcome.simulated a b := by
  unfold rename_files at h
  by_cases he : existsFs fs root = false
  · rw [if_pos he] at h
    cases h
  · rw [if_neg he] at h
    injection h with h2
    subst h2
    exact processItems_dry_run err _ fs

/-- Witness for C8 on a concrete dry run over the tree r, r/A B. -/
theorem dry_run_no_mutation_witness :
    rename_files noErr [⟨["r"], true⟩, ⟨["r", "A B"], false⟩] ["r"] true =
      Except.ok ⟨[⟨["r"], true⟩, ⟨["r", "A B"], false⟩],
        [Outcome.simulated "A B" "a-b"], false⟩ ∧
    (RunReport.mk [⟨["r"], true⟩, ⟨["r", "A B"], false⟩]
        [Outcome.simulated "A B" "a-b"] false).fs =
      [⟨["r"], true⟩, ⟨["r", "A B"], false⟩] :=
  ⟨by rfl, (dry_run_no_mutation noErr _ ["r"] _ (by rfl)).1⟩

/-- C1 (code-bug evaluation): on a root containing one file named `***`,
whose name sanitizes to the empty string, the run aborts with no outcome
emitted for the entry — `Path.with_name("")` raises an uncaught `ValueError`
inside `rename_item` — contradicting the claim that per-item failures never
abort the run and that an empty sanitized name is treated as a skip. -/
theorem run_aborts_on_empty_sanitized_name :
    sanitize_name "***" = "" ∧
      rename_files noErr [⟨["r"], true⟩, ⟨["r", "***"], false⟩] ["r"] true =
        Except.ok ⟨[⟨["r"], true⟩, ⟨["r", "***"], false⟩], [], true⟩ :=
  ⟨by rfl, by rfl⟩

end FileSanitizer
